import Mathlib

/-!
# Verification of the transactions ledger (bank.rs)

Shallow embedding of the ledger in src/src/bank.rs.  Client identifiers
(u16 in the source) and transaction identifiers (u32) are modelled as Nat:
the source never performs arithmetic on them, so the wrap-around range is
irrelevant to every property proved here.  Monetary amounts (f32 in the
source) are modelled as exact integers in fixed-point units, following the
data model of the specification (signed fixed-precision decimals): every
operation of the program is linear (addition and subtraction only), so the
scale of the unit is immaterial.  The HashMaps of the
source are modelled as association lists with first-match lookup and
overwrite-on-insert, which coincides with HashMap behaviour on the unique
keys the program maintains.
-/

/-- The five transaction kinds of the source enum TransactionType. -/
inductive TransactionType : Type where
  | Withdrawal : TransactionType
  | Deposit : TransactionType
  | Dispute : TransactionType
  | Resolve : TransactionType
  | Chargeback : TransactionType
deriving DecidableEq, Repr

/-- The input record: struct Transaction of the source. -/
structure Transaction : Type where
  tx_type : TransactionType
  client : Nat
  tx : Nat
  amount : ℤ
deriving DecidableEq, Repr

/-- First-match lookup in an association list, the model of HashMap.get. -/
def findKey {β : Type} : List (Nat × β) → Nat → Option β
  | [], _ => none
  | (k2, v) :: rest, k => if k2 = k then some v else findKey rest k

/-- Key-membership test, the model of HashMap.contains_key. -/
def containsKey {β : Type} (m : List (Nat × β)) (k : Nat) : Bool :=
  (findKey m k).isSome

/-- Remove every binding of a key, the model of HashMap.remove. -/
def eraseKey {β : Type} : List (Nat × β) → Nat → List (Nat × β)
  | [], _ => []
  | p :: rest, k => if p.1 = k then eraseKey rest k else p :: eraseKey rest k

/-- Overwriting insert, the model of HashMap.insert. -/
def insertKey {β : Type} (m : List (Nat × β)) (k : Nat) (v : β) : List (Nat × β) :=
  (k, v) :: eraseKey m k

/-- Update the value stored at a key in place, the model of
HashMap.get_mut followed by a mutation. -/
def updateKey {β : Type} : List (Nat × β) → Nat → (β → β) → List (Nat × β)
  | [], _, _ => []
  | p :: rest, k, f =>
    if p.1 = k then (p.1, f p.2) :: updateKey rest k f
    else p :: updateKey rest k f

/-- One client account: struct Client of the source. -/
structure Client : Type where
  client : Nat
  txns : List (Nat × Transaction)
  available : ℤ
  held : ℤ
  locked : Bool
  disputes : List (Nat × Transaction)
deriving DecidableEq, Repr

/-- Client::new. -/
def Client.new (client : Nat) : Client :=
  { client := client, txns := [], available := 0, held := 0,
    locked := false, disputes := [] }

/-- Client::withdrawal: accepted when the tx id is fresh and the amount is
nonzero; subtracts from available with no lower bound and stores the record. -/
def Client.withdrawal (c : Client) (txn : Transaction) : Client :=
  if containsKey c.txns txn.tx = false ∧ txn.amount ≠ 0 then
    { c with available := c.available - txn.amount,
             txns := insertKey c.txns txn.tx txn }
  else c

/-- Client::deposit: accepted when the tx id is fresh and the amount is
nonzero; adds to available and stores the record. -/
def Client.deposit (c : Client) (txn : Transaction) : Client :=
  if containsKey c.txns txn.tx = false ∧ txn.amount ≠ 0 then
    { c with available := c.available + txn.amount,
             txns := insertKey c.txns txn.tx txn }
  else c

/-- Client::dispute: when the tx id is stored and the stored record is a
Deposit, moves its amount from available to held and opens the dispute. -/
def Client.dispute (c : Client) (tx : Nat) : Client :=
  match findKey c.txns tx with
  | none => c
  | some txn =>
    if txn.tx_type = TransactionType.Deposit then
      { c with available := c.available - txn.amount,
               held := c.held + txn.amount,
               disputes := insertKey c.disputes tx txn }
    else c

/-- Client::resolve: when the tx id has an open dispute, moves its amount
from held back to available and closes the dispute. -/
def Client.resolve (c : Client) (tx : Nat) : Client :=
  match findKey c.disputes tx with
  | none => c
  | some txn =>
    { c with available := c.available + txn.amount,
             held := c.held - txn.amount,
             disputes := eraseKey c.disputes tx }

/-- Client::chargeback: when the tx id has an open dispute, removes its
amount from held, closes the dispute and locks the account. -/
def Client.chargeback (c : Client) (tx : Nat) : Client :=
  match findKey c.disputes tx with
  | none => c
  | some txn =>
    { c with held := c.held - txn.amount,
             disputes := eraseKey c.disputes tx,
             locked := true }

/-- Client::process_txn: no-op on a locked account, otherwise dispatch on
the transaction kind. -/
def Client.process_txn (c : Client) (txn : Transaction) : Client :=
  if c.locked then c
  else
    match txn.tx_type with
    | TransactionType.Withdrawal => c.withdrawal txn
    | TransactionType.Deposit => c.deposit txn
    | TransactionType.Dispute => c.dispute txn.tx
    | TransactionType.Resolve => c.resolve txn.tx
    | TransactionType.Chargeback => c.chargeback txn.tx

/-- Feed a list of transactions to one client account in order. -/
def Client.applyAll (c : Client) (txs : List Transaction) : Client :=
  txs.foldl Client.process_txn c

/-- The account states the program can actually produce: some sequence of
transactions applied to a fresh account. -/
def Client.Reachable (c : Client) : Prop :=
  ∃ id txs, c = (Client.new id).applyAll txs

/-- Invariant of reachable accounts: every stored accepted record has a
nonzero amount (zero-amount Deposits and Withdrawals are rejected). -/
def TxnsNonzero (c : Client) : Prop :=
  ∀ p ∈ c.txns, p.2.amount ≠ 0

/-- The ledger: struct Bank of the source. -/
structure Bank : Type where
  bank : List (Nat × Client)
deriving DecidableEq, Repr

/-- Bank::new. -/
def Bank.new : Bank := { bank := [] }

/-- Bank::add_client: create a fresh account unless one already exists. -/
def Bank.add_client (b : Bank) (client_id : Nat) : Bank :=
  if containsKey b.bank client_id then b
  else { bank := insertKey b.bank client_id (Client.new client_id) }

/-- Bank::insert_txn: open an account on a first Deposit record, then route
the record to the account of its client when that account exists. -/
def Bank.insert_txn (b : Bank) (txn : Transaction) : Bank :=
  let b1 :=
    if containsKey b.bank txn.client then b
    else if txn.tx_type = TransactionType.Deposit then b.add_client txn.client
    else b
  if containsKey b1.bank txn.client then
    { bank := updateKey b1.bank txn.client (fun c => c.process_txn txn) }
  else b1

/-- The data of Bank::to_string, one row per account:
(client, available, held, total, locked). -/
def Bank.snapshot (b : Bank) : List (Nat × ℤ × ℤ × ℤ × Bool) :=
  b.bank.map (fun p =>
    (p.2.client, p.2.available, p.2.held, p.2.available + p.2.held, p.2.locked))

/-- Feed a whole input sequence to a fresh ledger, as main.rs does. -/
def Bank.processAll (txs : List Transaction) : Bank :=
  txs.foldl Bank.insert_txn Bank.new

/-! ## Association-list lemmas -/

theorem findKey_eraseKey {β : Type} (m : List (Nat × β)) (k k2 : Nat) :
    findKey (eraseKey m k) k2 = if k2 = k then none else findKey m k2 := by
  induction m with
  | nil => simp [eraseKey, findKey]
  | cons p rest ih =>
    obtain ⟨a, v⟩ := p
    by_cases hak : a = k <;>
      simp only [eraseKey, findKey, hak, if_true, if_false, ite_true, ite_false,
        reduceIte, ih] <;> split_ifs <;> simp_all [findKey]

theorem findKey_eraseKey_self {β : Type} (m : List (Nat × β)) (k : Nat) :
    findKey (eraseKey m k) k = none := by
  simp [findKey_eraseKey]

theorem containsKey_eraseKey_self {β : Type} (m : List (Nat × β)) (k : Nat) :
    containsKey (eraseKey m k) k = false := by
  simp [containsKey, findKey_eraseKey_self]

theorem findKey_insertKey {β : Type} (m : List (Nat × β)) (k k2 : Nat) (v : β) :
    findKey (insertKey m k v) k2 = if k2 = k then some v else findKey m k2 := by
  by_cases h : k2 = k
  · subst h; simp [insertKey, findKey]
  · have h2 : ¬k = k2 := fun he => h he.symm
    simp [insertKey, findKey, h, h2, findKey_eraseKey]

theorem containsKey_insertKey {β : Type} (m : List (Nat × β)) (k k2 : Nat) (v : β) :
    containsKey (insertKey m k v) k2 = (decide (k2 = k) || containsKey m k2) := by
  by_cases h : k2 = k <;> simp [containsKey, findKey_insertKey, h]

theorem findKey_mem {β : Type} {m : List (Nat × β)} {k : Nat} {v : β}
    (h : findKey m k = some v) : (k, v) ∈ m := by
  induction m with
  | nil => simp [findKey] at h
  | cons p rest ih =>
    obtain ⟨a, w⟩ := p
    by_cases hp : a = k
    · simp only [findKey, hp, ite_true, if_true, reduceIte, Option.some.injEq] at h
      subst hp; subst h
      exact List.mem_cons_self _ _
    · simp only [findKey, hp, ite_false, if_false, reduceIte] at h
      exact List.mem_cons_of_mem _ (ih h)

theorem findKey_updateKey {β : Type} (m : List (Nat × β)) (k k2 : Nat) (f : β → β) :
    findKey (updateKey m k f) k2 =
      if k2 = k then (findKey m k2).map f else findKey m k2 := by
  induction m with
  | nil => simp [updateKey, findKey]
  | cons p rest ih =>
    obtain ⟨a, v⟩ := p
    by_cases hak : a = k
    · subst hak
      simp only [updateKey, if_pos rfl, findKey]
      by_cases hk2 : a = k2
      · subst hk2; simp [ih]
      · have h2 : ¬k2 = a := fun he => hk2 he.symm
        simp [hk2, h2, ih]
    · simp only [updateKey, hak, if_false, ite_false, reduceIte, findKey]
      by_cases h2 : a = k2
      · subst h2; simp [hak]
      · simp [h2, ih]

theorem containsKey_updateKey {β : Type} (m : List (Nat × β)) (k k2 : Nat)
    (f : β → β) : containsKey (updateKey m k f) k2 = containsKey m k2 := by
  by_cases h : k2 = k
  · simp only [containsKey, findKey_updateKey, h, ite_true, reduceIte]
    cases findKey m k2 <;> simp
  · simp only [containsKey, findKey_updateKey, h, ite_false, reduceIte]

theorem containsKey_eq_false_iff {β : Type} (m : List (Nat × β)) (k : Nat) :
    containsKey m k = false ↔ findKey m k = none := by
  unfold containsKey
  cases findKey m k <;> simp

/-! ## Frame facts about the five account operations -/

theorem withdrawal_locked (c : Client) (txn : Transaction) :
    (c.withdrawal txn).locked = c.locked := by
  unfold Client.withdrawal; split_ifs <;> rfl

theorem deposit_locked (c : Client) (txn : Transaction) :
    (c.deposit txn).locked = c.locked := by
  unfold Client.deposit; split_ifs <;> rfl

theorem dispute_locked (c : Client) (tx : Nat) :
    (c.dispute tx).locked = c.locked := by
  unfold Client.dispute
  cases findKey c.txns tx with
  | none => rfl
  | some txn =>
    by_cases h : txn.tx_type = TransactionType.Deposit <;> simp [h]

theorem resolve_locked (c : Client) (tx : Nat) :
    (c.resolve tx).locked = c.locked := by
  unfold Client.resolve
  cases findKey c.disputes tx <;> rfl

theorem dispute_txns (c : Client) (tx : Nat) :
    (c.dispute tx).txns = c.txns := by
  unfold Client.dispute
  cases findKey c.txns tx with
  | none => rfl
  | some txn =>
    by_cases h : txn.tx_type = TransactionType.Deposit <;> simp [h]

theorem process_txn_of_locked (c : Client) (txn : Transaction)
    (h : c.locked = true) : c.process_txn txn = c := by
  simp [Client.process_txn, h]

theorem process_txn_of_unlocked (c : Client) (txn : Transaction)
    (h : c.locked = false) :
    c.process_txn txn =
      match txn.tx_type with
      | TransactionType.Withdrawal => c.withdrawal txn
      | TransactionType.Deposit => c.deposit txn
      | TransactionType.Dispute => c.dispute txn.tx
      | TransactionType.Resolve => c.resolve txn.tx
      | TransactionType.Chargeback => c.chargeback txn.tx := by
  simp [Client.process_txn, h]

/-- C3: once an account is locked (which only a successful Chargeback does,
moving the disputed amount out of held and closing the dispute), every later
transaction of every kind leaves the whole account state unchanged, and no
operation ever resets the locked flag: the frozen state is terminal. -/
theorem locked_terminal (c : Client) (txn : Transaction) :
    (c.locked = true → c.process_txn txn = c)
    ∧ (c.locked = true → (c.process_txn txn).locked = true)
    ∧ ((c.process_txn txn).locked = true →
        c.locked = true ∨ txn.tx_type = TransactionType.Chargeback)
    ∧ (∀ t, c.locked = false → txn.tx_type = TransactionType.Chargeback →
        findKey c.disputes txn.tx = some t →
        c.process_txn txn =
          { c with held := c.held - t.amount,
                   disputes := eraseKey c.disputes txn.tx,
                   locked := true }) := by
  refine ⟨fun h => process_txn_of_locked c txn h, ?_, ?_, ?_⟩
  · intro h
    rw [process_txn_of_locked c txn h]
    exact h
  · intro h
    by_cases hl : c.locked
    · exact Or.inl hl
    · rw [process_txn_of_unlocked c txn (by simpa using hl)] at h
      cases hk : txn.tx_type
      · rw [hk] at h
        simp only [withdrawal_locked] at h
        exact Or.inl h
      · rw [hk] at h
        simp only [deposit_locked] at h
        exact Or.inl h
      · rw [hk] at h
        simp only [dispute_locked] at h
        exact Or.inl h
      · rw [hk] at h
        simp only [resolve_locked] at h
        exact Or.inl h
      · exact Or.inr rfl
  · intro t hl hk hf
    rw [process_txn_of_unlocked c txn hl, hk]
    unfold Client.chargeback
    rw [hf]

/-- C8: Resolve is idempotent on every account state: applying it twice to
the same tx id equals applying it once, because a successful Resolve removes
the tx id from the active-dispute set and a Resolve on an absent tx id is a
no-op. -/
theorem resolve_idempotent (c : Client) (tx : Nat) :
    (c.resolve tx).resolve tx = c.resolve tx := by
  cases hf : findKey c.disputes tx with
  | none =>
    have h1 : c.resolve tx = c := by unfold Client.resolve; rw [hf]
    rw [h1]
    exact h1
  | some txn =>
    have h1 : c.resolve tx =
        { c with available := c.available + txn.amount,
                 held := c.held - txn.amount,
                 disputes := eraseKey c.disputes tx } := by
      unfold Client.resolve; rw [hf]
    rw [h1]
    unfold Client.resolve
    rw [show findKey (eraseKey c.disputes tx) tx = none from
      findKey_eraseKey_self c.disputes tx]

/-- C10: Dispute and Resolve each preserve the sum available + held (they
only move the disputed amount between the two fields), and neither changes
the locked flag or the client identifier. -/
theorem dispute_resolve_frame (c : Client) (tx : Nat) :
    (c.dispute tx).available + (c.dispute tx).held = c.available + c.held
    ∧ (c.resolve tx).available + (c.resolve tx).held = c.available + c.held
    ∧ (c.dispute tx).locked = c.locked
    ∧ (c.resolve tx).locked = c.locked
    ∧ (c.dispute tx).client = c.client
    ∧ (c.resolve tx).client = c.client := by
  refine ⟨?_, ?_, dispute_locked c tx, resolve_locked c tx, ?_, ?_⟩
  · unfold Client.dispute
    cases findKey c.txns tx with
    | none => rfl
    | some txn =>
      by_cases h : txn.tx_type = TransactionType.Deposit <;> simp [h]
  · unfold Client.resolve
    cases findKey c.disputes tx with
    | none => rfl
    | some txn => simp
  · unfold Client.dispute
    cases findKey c.txns tx with
    | none => rfl
    | some txn =>
      by_cases h : txn.tx_type = TransactionType.Deposit <;> simp [h]
  · unfold Client.resolve
    cases findKey c.disputes tx <;> rfl

/-- C5: on an unlocked account a Deposit is a no-op exactly when its tx id
is already stored or its amount is zero; otherwise it adds the amount to
available and stores the record, so a second Deposit with the same tx id
after an accepted one changes nothing. -/
theorem deposit_spec (c : Client) (txn : Transaction) (hl : c.locked = false)
    (hk : txn.tx_type = TransactionType.Deposit) :
    (c.process_txn txn = c ↔
      (containsKey c.txns txn.tx = true ∨ txn.amount = 0))
    ∧ (containsKey c.txns txn.tx = false → txn.amount ≠ 0 →
        c.process_txn txn =
          { c with available := c.available + txn.amount,
                   txns := insertKey c.txns txn.tx txn }
        ∧ ∀ txn2, txn2.tx_type = TransactionType.Deposit → txn2.tx = txn.tx →
            (c.process_txn txn).process_txn txn2 = c.process_txn txn) := by
  have hp : c.process_txn txn = c.deposit txn := by
    rw [process_txn_of_unlocked c txn hl, hk]
  constructor
  · rw [hp]
    unfold Client.deposit
    by_cases h : containsKey c.txns txn.tx = false ∧ txn.amount ≠ 0
    · rw [if_pos h]
      constructor
      · intro heq
        exfalso
        have ha := congrArg Client.available heq
        simp only [] at ha
        have : txn.amount = 0 := by omega
        exact h.2 this
      · intro hor
        exfalso
        rcases hor with h1 | h2
        · rw [h.1] at h1; exact Bool.false_ne_true h1
        · exact h.2 h2
    · rw [if_neg h]
      simp only [true_iff]
      rcases not_and_or.mp h with h1 | h2
      · left
        cases hb : containsKey c.txns txn.tx
        · exact absurd hb h1
        · rfl
      · right
        exact of_not_not h2
  · intro h1 h2
    have hacc : c.process_txn txn =
        { c with available := c.available + txn.amount,
                 txns := insertKey c.txns txn.tx txn } := by
      rw [hp]
      unfold Client.deposit
      rw [if_pos ⟨h1, h2⟩]
    refine ⟨hacc, fun txn2 hk2 htx2 => ?_⟩
    rw [hacc]
    rw [process_txn_of_unlocked _ txn2 (by simpa using hl), hk2]
    unfold Client.deposit
    rw [if_neg]
    intro hcon
    have : containsKey (insertKey c.txns txn.tx txn) txn2.tx = true := by
      rw [containsKey_insertKey, htx2]
      simp
    rw [this] at hcon
    exact Bool.noConfusion hcon.1

/-- C6: on an unlocked account a Withdrawal with a fresh tx id and nonzero
amount subtracts the amount from available and stores the record, with no
lower-bound check: it applies even when it drives available below zero. -/
theorem withdrawal_spec (c : Client) (txn : Transaction) (hl : c.locked = false)
    (hk : txn.tx_type = TransactionType.Withdrawal)
    (h1 : containsKey c.txns txn.tx = false) (h2 : txn.amount ≠ 0) :
    c.process_txn txn =
      { c with available := c.available - txn.amount,
               txns := insertKey c.txns txn.tx txn }
    ∧ (c.available - txn.amount < 0 → (c.process_txn txn).available < 0) := by
  have hacc : c.process_txn txn =
      { c with available := c.available - txn.amount,
               txns := insertKey c.txns txn.tx txn } := by
    rw [process_txn_of_unlocked c txn hl, hk]
    unfold Client.withdrawal
    rw [if_pos ⟨h1, h2⟩]
  refine ⟨hacc, fun hneg => ?_⟩
  rw [hacc]
  exact hneg

/-- C9: the zero-amount rejection tests only for amount equal to zero, so a
strictly negative Deposit is accepted and decreases available, and a
strictly negative Withdrawal is accepted and increases available. -/
theorem negative_amounts_accepted (c : Client) (txn : Transaction)
    (hl : c.locked = false) (h1 : containsKey c.txns txn.tx = false)
    (hneg : txn.amount < 0) :
    (txn.tx_type = TransactionType.Deposit →
      c.process_txn txn =
        { c with available := c.available + txn.amount,
                 txns := insertKey c.txns txn.tx txn }
      ∧ (c.process_txn txn).available < c.available)
    ∧ (txn.tx_type = TransactionType.Withdrawal →
      c.process_txn txn =
        { c with available := c.available - txn.amount,
                 txns := insertKey c.txns txn.tx txn }
      ∧ (c.process_txn txn).available > c.available) := by
  have h2 : txn.amount ≠ 0 := ne_of_lt hneg
  constructor
  · intro hk
    have hacc : c.process_txn txn =
        { c with available := c.available + txn.amount,
                 txns := insertKey c.txns txn.tx txn } := by
      rw [process_txn_of_unlocked c txn hl, hk]
      unfold Client.deposit
      rw [if_pos ⟨h1, h2⟩]
    refine ⟨hacc, ?_⟩
    rw [hacc]
    simp only []
    omega
  · intro hk
    have hacc : c.process_txn txn =
        { c with available := c.available - txn.amount,
                 txns := insertKey c.txns txn.tx txn } := by
      rw [process_txn_of_unlocked c txn hl, hk]
      unfold Client.withdrawal
      rw [if_pos ⟨h1, h2⟩]
    refine ⟨hacc, ?_⟩
    rw [hacc]
    simp only []
    omega

/-! ## The nonzero-amount invariant of reachable accounts -/

theorem mem_eraseKey {β : Type} {p : Nat × β} {m : List (Nat × β)} {k : Nat}
    (h : p ∈ eraseKey m k) : p ∈ m := by
  induction m with
  | nil => simp [eraseKey] at h
  | cons q rest ih =>
    by_cases hq : q.1 = k
    · simp only [eraseKey, hq, if_pos, ite_true, reduceIte] at h
      exact List.mem_cons_of_mem _ (ih h)
    · simp only [eraseKey, hq, if_false, ite_false, reduceIte] at h
      rcases List.mem_cons.mp h with h1 | h2
      · exact h1 ▸ List.mem_cons_self _ _
      · exact List.mem_cons_of_mem _ (ih h2)

theorem resolve_txns (c : Client) (tx : Nat) :
    (c.resolve tx).txns = c.txns := by
  unfold Client.resolve
  cases findKey c.disputes tx <;> rfl

theorem chargeback_txns (c : Client) (tx : Nat) :
    (c.chargeback tx).txns = c.txns := by
  unfold Client.chargeback
  cases findKey c.disputes tx <;> rfl

theorem txnsNonzero_process (c : Client) (txn : Transaction)
    (h : TxnsNonzero c) : TxnsNonzero (c.process_txn txn) := by
  by_cases hl : c.locked
  · rw [process_txn_of_locked c txn hl]
    exact h
  · rw [process_txn_of_unlocked c txn (by simpa using hl)]
    cases txn.tx_type
    · unfold Client.withdrawal
      split_ifs with hc
      · intro p hp
        rcases List.mem_cons.mp hp with h1 | h2
        · rw [h1]
          exact hc.2
        · exact h p (mem_eraseKey h2)
      · exact h
    · unfold Client.deposit
      split_ifs with hc
      · intro p hp
        rcases List.mem_cons.mp hp with h1 | h2
        · rw [h1]
          exact hc.2
        · exact h p (mem_eraseKey h2)
      · exact h
    · intro p hp
      rw [dispute_txns] at hp
      exact h p hp
    · intro p hp
      rw [resolve_txns] at hp
      exact h p hp
    · intro p hp
      rw [chargeback_txns] at hp
      exact h p hp

theorem reachable_txnsNonzero {c : Client} (h : c.Reachable) : TxnsNonzero c := by
  obtain ⟨id, txs, rfl⟩ := h
  have base : TxnsNonzero (Client.new id) := by
    intro p hp
    simp [Client.new] at hp
  have step : ∀ (ts : List Transaction) (c0 : Client),
      TxnsNonzero c0 → TxnsNonzero (c0.applyAll ts) := by
    intro ts
    induction ts with
    | nil => intro c0 h0; exact h0
    | cons t rest ih =>
      intro c0 h0
      exact ih _ (txnsNonzero_process c0 t h0)
  exact step txs (Client.new id) base

/-! ## Effect of Dispute and Resolve when they fire -/

theorem dispute_effect (c : Client) (tx : Nat) (t : Transaction)
    (hf : findKey c.txns tx = some t)
    (ht : t.tx_type = TransactionType.Deposit) :
    c.dispute tx =
      { c with available := c.available - t.amount,
               held := c.held + t.amount,
               disputes := insertKey c.disputes tx t } := by
  unfold Client.dispute
  rw [hf]
  simp only [ht, ite_true, if_pos, reduceIte]

theorem resolve_effect (c : Client) (tx : Nat) (t : Transaction)
    (hf : findKey c.disputes tx = some t) :
    c.resolve tx =
      { c with available := c.available + t.amount,
               held := c.held - t.amount,
               disputes := eraseKey c.disputes tx } := by
  unfold Client.resolve
  rw [hf]

/-- C2: on an unlocked (reachable) account, Dispute(tx) is a no-op exactly
when tx is not among the accepted records or the stored record is not a
Deposit; otherwise it subtracts the stored amount from available, adds it to
held and opens the dispute, and a second Dispute on the same open dispute is
not rejected: it applies the transfer a second time. -/
theorem dispute_spec (c : Client) (hr : c.Reachable) (hl : c.locked = false)
    (tx : Nat) :
    (c.dispute tx = c ↔
      (findKey c.txns tx = none ∨
       ∃ t, findKey c.txns tx = some t ∧ t.tx_type ≠ TransactionType.Deposit))
    ∧ (∀ t, findKey c.txns tx = some t →
        t.tx_type = TransactionType.Deposit →
        c.dispute tx =
          { c with available := c.available - t.amount,
                   held := c.held + t.amount,
                   disputes := insertKey c.disputes tx t }
        ∧ ((c.dispute tx).dispute tx).available = c.available - 2 * t.amount
        ∧ ((c.dispute tx).dispute tx).held = c.held + 2 * t.amount
        ∧ containsKey (c.dispute tx).disputes tx = true) := by
  have hnz := reachable_txnsNonzero hr
  constructor
  · constructor
    · intro heq
      cases hf : findKey c.txns tx with
      | none => exact Or.inl rfl
      | some t =>
        by_cases ht : t.tx_type = TransactionType.Deposit
        · exfalso
          have heff := dispute_effect c tx t hf ht
          rw [heff] at heq
          have ha := congrArg Client.available heq
          simp only [] at ha
          have hz : t.amount = 0 := by omega
          exact hnz (tx, t) (findKey_mem hf) hz
        · exact Or.inr ⟨t, rfl, ht⟩
    · intro hor
      rcases hor with hnone | ⟨t, hf, ht⟩
      · unfold Client.dispute
        rw [hnone]
      · unfold Client.dispute
        rw [hf]
        simp only [ht, ite_false, if_neg, reduceIte]
  · intro t hf ht
    have h1 := dispute_effect c tx t hf ht
    have hf2 : findKey (c.dispute tx).txns tx = some t := by
      rw [dispute_txns]
      exact hf
    have h2 := dispute_effect (c.dispute tx) tx t hf2 ht
    refine ⟨h1, ?_, ?_, ?_⟩
    · rw [h2, h1]
      simp only []
      ring
    · rw [h2, h1]
      simp only []
      ring
    · rw [h1]
      simp only [containsKey_insertKey]
      simp

/-- C4: a Deposit that has just been accepted, followed by Dispute then
Resolve of the same tx id, returns available and held exactly to their
values right after the Deposit (round-trip law). -/
theorem deposit_dispute_resolve_roundtrip (c : Client) (txn : Transaction)
    (hl : c.locked = false) (h1 : containsKey c.txns txn.tx = false)
    (h2 : txn.amount ≠ 0) (hk : txn.tx_type = TransactionType.Deposit) :
    (((c.process_txn txn).dispute txn.tx).resolve txn.tx).available =
      (c.process_txn txn).available
    ∧ (((c.process_txn txn).dispute txn.tx).resolve txn.tx).held =
      (c.process_txn txn).held := by
  have hacc : c.process_txn txn =
      { c with available := c.available + txn.amount,
               txns := insertKey c.txns txn.tx txn } := by
    rw [process_txn_of_unlocked c txn hl, hk]
    unfold Client.deposit
    rw [if_pos ⟨h1, h2⟩]
  have hf1 : findKey (c.process_txn txn).txns txn.tx = some txn := by
    rw [hacc]
    simp only [findKey_insertKey, ite_true, if_pos, reduceIte]
  have hd := dispute_effect (c.process_txn txn) txn.tx txn hf1 hk
  have hf2 : findKey ((c.process_txn txn).dispute txn.tx).disputes txn.tx =
      some txn := by
    rw [hd]
    simp only [findKey_insertKey, ite_true, if_pos, reduceIte]
  have hres := resolve_effect ((c.process_txn txn).dispute txn.tx) txn.tx txn hf2
  constructor
  · rw [hres, hd]
    simp only []
    ring
  · rw [hres, hd]
    simp only []
    ring

/-! ## Ledger routing -/

theorem containsKey_of_mem {β : Type} {m : List (Nat × β)} {p : Nat × β}
    (h : p ∈ m) : containsKey m p.1 = true := by
  induction m with
  | nil => simp at h
  | cons q rest ih =>
    rcases List.mem_cons.mp h with h1 | h2
    · subst h1
      simp [containsKey, findKey]
    · by_cases hq : q.1 = p.1
      · simp [containsKey, findKey, hq]
      · simp only [containsKey, findKey, hq, ite_false, if_neg, reduceIte]
        exact ih h2

theorem insert_txn_known (b : Bank) (txn : Transaction)
    (hc : containsKey b.bank txn.client = true) :
    b.insert_txn txn =
      { bank := updateKey b.bank txn.client (fun c => c.process_txn txn) } := by
  unfold Bank.insert_txn
  simp [hc]

theorem insert_txn_new_deposit (b : Bank) (txn : Transaction)
    (hc : containsKey b.bank txn.client = false)
    (hd : txn.tx_type = TransactionType.Deposit) :
    b.insert_txn txn =
      { bank := updateKey (insertKey b.bank txn.client (Client.new txn.client))
          txn.client (fun c => c.process_txn txn) } := by
  unfold Bank.insert_txn Bank.add_client
  simp [hc, hd, containsKey_insertKey]

theorem insert_txn_new_other (b : Bank) (txn : Transaction)
    (hc : containsKey b.bank txn.client = false)
    (hd : txn.tx_type ≠ TransactionType.Deposit) :
    b.insert_txn txn = b := by
  unfold Bank.insert_txn
  simp [hc, hd]

theorem contains_insert_txn (b : Bank) (txn : Transaction) (cl : Nat) :
    containsKey (b.insert_txn txn).bank cl =
      (containsKey b.bank cl ||
       (decide (cl = txn.client) &&
        decide (txn.tx_type = TransactionType.Deposit))) := by
  by_cases hc : containsKey b.bank txn.client
  · rw [insert_txn_known b txn hc]
    simp only [containsKey_updateKey]
    by_cases hcl : cl = txn.client
    · subst hcl
      simp [hc]
    · simp [hcl]
  · have hc2 : containsKey b.bank txn.client = false := by simpa using hc
    by_cases hd : txn.tx_type = TransactionType.Deposit
    · rw [insert_txn_new_deposit b txn hc2 hd]
      simp only [containsKey_updateKey, containsKey_insertKey, hd]
      by_cases hcl : cl = txn.client <;> simp [hcl]
    · rw [insert_txn_new_other b txn hc2 hd]
      simp [hd]

theorem contains_processAll_aux (txs : List Transaction) (b : Bank) (cl : Nat) :
    containsKey ((txs.foldl Bank.insert_txn b).bank) cl = true ↔
      (containsKey b.bank cl = true ∨
       ∃ t ∈ txs, t.client = cl ∧ t.tx_type = TransactionType.Deposit) := by
  induction txs generalizing b with
  | nil => simp
  | cons t ts ih =>
    simp only [List.foldl_cons]
    rw [ih (b.insert_txn t), contains_insert_txn]
    simp only [Bool.or_eq_true, decide_eq_true_eq, Bool.and_eq_true,
      List.mem_cons]
    constructor
    · rintro (⟨h | ⟨h1, h2⟩⟩ | ⟨t2, ht2, h3, h4⟩)
      · exact Or.inl h
      · exact Or.inr ⟨t, Or.inl rfl, h1.symm, h2⟩
      · exact Or.inr ⟨t2, Or.inr ht2, h3, h4⟩
    · rintro (h | ⟨t2, (rfl | ht2), h3, h4⟩)
      · exact Or.inl (Or.inl h)
      · exact Or.inl (Or.inr ⟨h3.symm, h4⟩)
      · exact Or.inr ⟨t2, ht2, h3, h4⟩

/-- C7: a record for a client with no existing account creates an account
only when it is a Deposit; any other kind is silently discarded, creates no
account, and yields no row for that client in the snapshot. -/
theorem unknown_client_requires_deposit (b : Bank) (txn : Transaction)
    (hc : containsKey b.bank txn.client = false)
    (hb : ∀ p ∈ b.bank, p.2.client = p.1)
    (hk : txn.tx_type ≠ TransactionType.Deposit) :
    b.insert_txn txn = b
    ∧ containsKey (b.insert_txn txn).bank txn.client = false
    ∧ ∀ row ∈ (b.insert_txn txn).snapshot, row.1 ≠ txn.client := by
  have h0 := insert_txn_new_other b txn hc hk
  refine ⟨h0, by rw [h0]; exact hc, ?_⟩
  rw [h0]
  intro row hrow
  unfold Bank.snapshot at hrow
  rcases List.mem_map.mp hrow with ⟨p, hp, hpr⟩
  intro heq
  have hcl : p.2.client = txn.client := by
    rw [← heq, ← hpr]
  have hkey : p.1 = txn.client := by
    rw [← hb p hp, hcl]
  have hcc := containsKey_of_mem hp
  rw [hkey, hc] at hcc
  exact Bool.noConfusion hcc

/-- C1 as stated is false on the code: a zero-amount Deposit from a new
client first creates the account and only then is rejected, so after the
single-record input Deposit(client 1, tx 1, amount 0) the account of client
1 exists (and appears in the snapshot) although no Deposit was accepted:
its accepted-transaction map is empty. -/
theorem account_created_by_rejected_deposit :
    containsKey (Bank.processAll
      [⟨TransactionType.Deposit, 1, 1, 0⟩]).bank 1 = true
    ∧ findKey (Bank.processAll
      [⟨TransactionType.Deposit, 1, 1, 0⟩]).bank 1 = some (Client.new 1) := by
  decide

/-- C1 amended: a client's account exists if and only if at least one
Deposit record for that client has been routed to the ledger, accepted or
not; no account is ever created by a Withdrawal, Dispute, Resolve, or
Chargeback. -/
theorem account_exists_iff_deposit_record (txs : List Transaction) (cl : Nat) :
    containsKey (Bank.processAll txs).bank cl = true ↔
      ∃ t ∈ txs, t.client = cl ∧ t.tx_type = TransactionType.Deposit := by
  unfold Bank.processAll
  rw [contains_processAll_aux]
  simp [Bank.new, containsKey, findKey]

/-! ## Witnesses: the theorems above applied at concrete inputs -/

theorem dispute_spec_witness :
    ((Client.new 1).applyAll [⟨TransactionType.Deposit, 1, 1, 10⟩]).dispute 1 =
      { client := 1, txns := [(1, ⟨TransactionType.Deposit, 1, 1, 10⟩)],
        available := 0, held := 10, locked := false,
        disputes := [(1, ⟨TransactionType.Deposit, 1, 1, 10⟩)] } := by
  have h := (dispute_spec
      ((Client.new 1).applyAll [⟨TransactionType.Deposit, 1, 1, 10⟩])
      ⟨1, [⟨TransactionType.Deposit, 1, 1, 10⟩], rfl⟩ (by decide) 1).2
    ⟨TransactionType.Deposit, 1, 1, 10⟩ (by decide) rfl
  exact h.1.trans (by decide)

theorem locked_terminal_witness :
    (({ client := 1, txns := [], available := 5, held := 2, locked := true,
        disputes := [] } : Client).process_txn
      ⟨TransactionType.Deposit, 1, 2, 7⟩ =
      { client := 1, txns := [], available := 5, held := 2, locked := true,
        disputes := [] })
    ∧ (({ client := 1, txns := [(1, ⟨TransactionType.Deposit, 1, 1, 4⟩)],
          available := 0, held := 4, locked := false,
          disputes := [(1, ⟨TransactionType.Deposit, 1, 1, 4⟩)] } : Client).process_txn
        ⟨TransactionType.Chargeback, 1, 1, 0⟩ =
      { client := 1, txns := [(1, ⟨TransactionType.Deposit, 1, 1, 4⟩)],
        available := 0, held := 0, locked := true, disputes := [] }) := by
  constructor
  · exact (locked_terminal _ _).1 rfl
  · exact ((locked_terminal _ _).2.2.2 ⟨TransactionType.Deposit, 1, 1, 4⟩
      rfl rfl (by decide)).trans (by decide)

theorem roundtrip_witness :
    ((((Client.new 1).process_txn
        ⟨TransactionType.Deposit, 1, 1, 10⟩).dispute 1).resolve 1).available = 10
    ∧ ((((Client.new 1).process_txn
        ⟨TransactionType.Deposit, 1, 1, 10⟩).dispute 1).resolve 1).held = 0 := by
  have h := deposit_dispute_resolve_roundtrip (Client.new 1)
    ⟨TransactionType.Deposit, 1, 1, 10⟩ rfl (by decide) (by decide) rfl
  exact ⟨h.1.trans (by decide), h.2.trans (by decide)⟩

theorem deposit_spec_witness :
    ((Client.new 1).process_txn ⟨TransactionType.Deposit, 1, 1, 10⟩ =
      { client := 1, txns := [(1, ⟨TransactionType.Deposit, 1, 1, 10⟩)],
        available := 10, held := 0, locked := false, disputes := [] })
    ∧ (((Client.new 1).process_txn
          ⟨TransactionType.Deposit, 1, 1, 10⟩).process_txn
          ⟨TransactionType.Deposit, 1, 1, 99⟩ =
        (Client.new 1).process_txn ⟨TransactionType.Deposit, 1, 1, 10⟩) := by
  have h := (deposit_spec (Client.new 1)
    ⟨TransactionType.Deposit, 1, 1, 10⟩ rfl rfl).2 (by decide) (by decide)
  exact ⟨h.1.trans (by decide), h.2 ⟨TransactionType.Deposit, 1, 1, 99⟩ rfl rfl⟩

theorem withdrawal_spec_witness :
    ((Client.new 1).process_txn ⟨TransactionType.Withdrawal, 1, 1, 5⟩ =
      { client := 1, txns := [(1, ⟨TransactionType.Withdrawal, 1, 1, 5⟩)],
        available := -5, held := 0, locked := false, disputes := [] })
    ∧ ((Client.new 1).process_txn
        ⟨TransactionType.Withdrawal, 1, 1, 5⟩).available < 0 := by
  have h := withdrawal_spec (Client.new 1)
    ⟨TransactionType.Withdrawal, 1, 1, 5⟩ rfl rfl (by decide) (by decide)
  exact ⟨h.1.trans (by decide), h.1 ▸ (by decide)⟩

theorem negative_amounts_witness :
    ((Client.new 1).process_txn
        ⟨TransactionType.Deposit, 1, 1, -3⟩).available < (Client.new 1).available
    ∧ ((Client.new 2).process_txn
        ⟨TransactionType.Withdrawal, 2, 1, -3⟩).available >
        (Client.new 2).available := by
  have hd := (negative_amounts_accepted (Client.new 1)
    ⟨TransactionType.Deposit, 1, 1, -3⟩ rfl (by decide) (by decide)).1 rfl
  have hw := (negative_amounts_accepted (Client.new 2)
    ⟨TransactionType.Withdrawal, 2, 1, -3⟩ rfl (by decide) (by decide)).2 rfl
  exact ⟨hd.2, hw.2⟩

theorem unknown_client_witness :
    Bank.new.insert_txn ⟨TransactionType.Withdrawal, 1, 1, 5⟩ = Bank.new
    ∧ containsKey (Bank.new.insert_txn
        ⟨TransactionType.Withdrawal, 1, 1, 5⟩).bank 1 = false := by
  have h := unknown_client_requires_deposit Bank.new
    ⟨TransactionType.Withdrawal, 1, 1, 5⟩ (by decide)
    (by intro p hp; simp [Bank.new] at hp) (by decide)
  exact ⟨h.1, h.2.1⟩

